import Mathlib

/-!
Verification of `toytools/collect.py` against its specification.

The Python module is shallowly embedded below:
* `validate_toyzero_images` — the pair validator (raises `RuntimeError`,
  modelled as `Except MismatchError Unit`);
* `parse_images` — the name parser built on the regular expression
  `^(.+)-(\d+)-([UVW])\.npz$` (Python semantics: `.` matches any character
  except a newline, `\d` a decimal digit, and `$` matches at the end of the
  string or just before a trailing newline);
* `filter_parsed_images` / `filter_images` — the metadata filters;
* `train_val_test_split` / `train_test_split` — the split engine.
  NumPy index arrays are modelled as `List ℕ`, Python slicing as `pySlice`
  (with Python's clamping and negative-index rules), the `int()` coercion as
  truncation toward zero, and the numeric `val_size` / `test_size` arguments
  as exact rationals `ℚ`.  The caller-supplied random generator `prg` is
  modelled as a function `List ℕ → List ℕ`; theorems about shuffling assume
  that it permutes its input, which `numpy`'s in-place shuffle guarantees.
-/

namespace Toytools

instance {ε α : Type} [DecidableEq ε] [DecidableEq α] : DecidableEq (Except ε α) :=
  fun x y =>
    match x, y with
    | Except.error e, Except.error f =>
        if h : e = f then isTrue (by rw [h])
        else isFalse (by intro hc; injection hc; contradiction)
    | Except.ok a, Except.ok b =>
        if h : a = b then isTrue (by rw [h])
        else isFalse (by intro hc; injection hc; contradiction)
    | Except.error _, Except.ok _ => isFalse (by intro hc; exact Except.noConfusion hc)
    | Except.ok _, Except.error _ => isFalse (by intro hc; exact Except.noConfusion hc)

/-- Python slice-index normalisation: a negative index counts from the end,
and the result is clamped into `[0, len]`. -/
def pyIdx (len : ℕ) (i : ℤ) : ℕ :=
  if i < 0 then ((len : ℤ) + i).toNat else min i.toNat len

/-- Python slice `l[a:b]`. -/
def pySlice {α : Type} (l : List α) (a b : ℤ) : List α :=
  (l.take (pyIdx l.length b)).drop (pyIdx l.length a)

/-- Python slice `l[a:]`. -/
def pySliceFrom {α : Type} (l : List α) (a : ℤ) : List α :=
  l.drop (pyIdx l.length a)

/-- Python `int()` on an exact rational value: truncation toward zero. -/
def intTrunc (q : ℚ) : ℤ :=
  if 0 ≤ q then ⌊q⌋ else ⌈q⌉

/-- Lines 162-169 of `collect.py`: a size `s ≤ 1` is a fraction of the
index count and is scaled by it, a size `s > 1` is an absolute count;
either way the result then passes through `int()`. -/
def resolveSize (len : ℕ) (size : ℚ) : ℤ :=
  if size ≤ 1 then intTrunc ((len : ℚ) * size) else intTrunc size

/-- `train_val_test_split` of `collect.py` (lines 122-176). -/
def train_val_test_split (n : ℕ) (val_size test_size : ℚ) (shuffle : Bool)
    (prg : List ℕ → List ℕ) : List ℕ × List ℕ × List ℕ :=
  let indices0 := List.range n
  let indices := if shuffle then prg indices0 else indices0
  let ts : ℤ := resolveSize indices.length test_size
  let vs : ℤ := resolveSize indices.length val_size
  let train_size : ℤ := max 0 ((indices.length : ℤ) - vs - ts)
  (pySlice indices 0 train_size,
   pySlice indices train_size (train_size + vs),
   pySliceFrom indices (train_size + vs))

/-- `train_test_split` of `collect.py` (lines 178-212): calls the three-way
split with `val_size = 0` and drops the validation group. -/
def train_test_split (n : ℕ) (test_size : ℚ) (shuffle : Bool)
    (prg : List ℕ → List ℕ) : List ℕ × List ℕ :=
  let r := train_val_test_split n 0 test_size shuffle prg
  (r.1, r.2.2)

/-- The two `RuntimeError`s of `validate_toyzero_images`, with the data the
message carries. -/
inductive MismatchError where
  | countMismatch (nFake nReal : ℕ)
  | nameMismatch (imgFake imgReal : String)
deriving DecidableEq

/-- The element-wise loop of `validate_toyzero_images` over the zipped
lists: raise on the first differing pair. -/
def validateZip : List (String × String) → Except MismatchError Unit
  | [] => Except.ok ()
  | (a, b) :: rest =>
      if a ≠ b then Except.error (MismatchError.nameMismatch a b)
      else validateZip rest

/-- `validate_toyzero_images` of `collect.py` (lines 30-44). -/
def validate_toyzero_images (imgs_fake imgs_real : List String) :
    Except MismatchError Unit :=
  if imgs_fake.length ≠ imgs_real.length then
    Except.error (MismatchError.countMismatch imgs_fake.length imgs_real.length)
  else validateZip (imgs_fake.zip imgs_real)

/-- The `RuntimeError` of `parse_images`, carrying the offending name. -/
inductive ParseError where
  | cannotParse (name : String)
deriving DecidableEq

/-- Python `int()` on a string of decimal digits. -/
def natOfDigits (cs : List Char) : ℕ :=
  cs.foldl (fun acc c => 10 * acc + (c.toNat - 48)) 0

/-- Matching of the anchored pattern `(.+)-(\d+)-([UVW])\.npz` against a
full character list, analysed from the right end.  The digit group is the
maximal run of digits left of the final `-<category>.npz`; it must be
non-empty and preceded by a hyphen, and the base left of that hyphen must
be non-empty and (since Python `.` excludes it) newline-free.  This is the
unique decomposition, so it is also the one the backtracking engine finds. -/
def parseImageChars (cs : List Char) : Option (String × ℕ × String) :=
  match cs.reverse with
  | 'z' :: 'p' :: 'n' :: '.' :: c :: '-' :: rest =>
      if c = 'U' ∨ c = 'V' ∨ c = 'W' then
        match rest.takeWhile Char.isDigit, rest.dropWhile Char.isDigit with
        | [], _ => none
        | digitsRev, '-' :: baseRev =>
            if baseRev ≠ [] ∧ baseRev.all (fun ch => ch ≠ '\n') then
              some (String.mk baseRev.reverse, natOfDigits digitsRev.reverse,
                String.mk [c])
            else none
        | _ :: _, _ => none
      else none
  | _ => none

/-- Python's `$` anchor: a single trailing newline is ignored. -/
def stripTrailingNewline (cs : List Char) : List Char :=
  if cs.getLast? = some '\n' then cs.dropLast else cs

/-- One iteration of the `parse_images` loop: `pattern.match(image)` and
extraction of the `(image, base, apa, plane)` record. -/
def parseImageName (s : String) : Option (String × String × ℕ × String) :=
  match parseImageChars (stripTrailingNewline s.data) with
  | some (b, a, p) => some (s, b, a, p)
  | none => none

/-- `parse_images` of `collect.py` (lines 59-77): parse each name in order,
raising on the first one the pattern rejects. -/
def parse_images : List String → Except ParseError (List (String × String × ℕ × String))
  | [] => Except.ok []
  | img :: rest =>
      match parseImageName img with
      | none => Except.error (ParseError.cannotParse img)
      | some r =>
          match parse_images rest with
          | Except.error e => Except.error e
          | Except.ok l => Except.ok (r :: l)

/-- `filter_parsed_images` of `collect.py` (lines 79-92).  The Python
selector sets are modelled as optional lists queried by membership. -/
def filter_parsed_images (parsed_images : List (String × String × ℕ × String))
    (apas : Option (List ℕ)) (planes : Option (List String)) :
    List (String × String × ℕ × String) :=
  let p1 := match apas with
    | some a => parsed_images.filter (fun x => x.2.2.1 ∈ a)
    | none => parsed_images
  match planes with
  | some pl => p1.filter (fun x => x.2.2.2 ∈ pl)
  | none => p1

/-- `filter_images` of `collect.py` (lines 94-107): identity when both
selectors are absent, otherwise parse, filter, and project the names. -/
def filter_images (images : List String) (apas : Option (List ℕ))
    (planes : Option (List String)) : Except ParseError (List String) :=
  if planes = none ∧ apas = none then Except.ok images
  else
    match parse_images images with
    | Except.error e => Except.error e
    | Except.ok parsed =>
        Except.ok ((filter_parsed_images parsed apas planes).map (fun x => x.1))

/-- The decimal digit characters. -/
def digitChar (d : ℕ) : Char :=
  match d with
  | 0 => '0' | 1 => '1' | 2 => '2' | 3 => '3' | 4 => '4'
  | 5 => '5' | 6 => '6' | 7 => '7' | 8 => '8' | _ => '9'

/-- Decimal digit string of a natural number (auxiliary, fuel-driven so
that it reduces definitionally). -/
def natDigitsAux : ℕ → ℕ → List Char
  | 0, _ => []
  | fuel + 1, n =>
      if n < 10 then [digitChar n]
      else natDigitsAux fuel (n / 10) ++ [digitChar (n % 10)]

/-- Decimal digit string of a natural number, most significant first. -/
def natDigits (n : ℕ) : List Char := natDigitsAux (n + 1) n

/-- Modelled from the spec: the repository contains only the parser; the
spec describes the filename format `<base>-<group_id>-<category>.npz`
whose inverse the parser is.  This is that format, rendering the group id
in decimal. -/
def formatImageName (base : String) (gid : ℕ) (cat : String) : String :=
  base ++ "-" ++ String.mk (natDigits gid) ++ "-" ++ cat ++ ".npz"

/-! ### Infrastructure: the split engine as slices of a fixed index list -/

/-- The pure slicing core of the split engine, applied to an arbitrary
(possibly shuffled) index list. -/
def splitParts (l : List ℕ) (val_size test_size : ℚ) :
    List ℕ × List ℕ × List ℕ :=
  let ts : ℤ := resolveSize l.length test_size
  let vs : ℤ := resolveSize l.length val_size
  let train_size : ℤ := max 0 ((l.length : ℤ) - vs - ts)
  (pySlice l 0 train_size,
   pySlice l train_size (train_size + vs),
   pySliceFrom l (train_size + vs))

theorem tvts_eq_splitParts (n : ℕ) (v t : ℚ) (sh : Bool)
    (prg : List ℕ → List ℕ) :
    train_val_test_split n v t sh prg =
      splitParts (if sh then prg (List.range n) else List.range n) v t := rfl

theorem pyIdx_of_nonneg {len : ℕ} {a : ℤ} (h : 0 ≤ a) :
    pyIdx len a = min a.toNat len := by
  simp [pyIdx, not_lt.mpr h, Int.not_lt.mpr h]

theorem pyIdx_zero (len : ℕ) : pyIdx len 0 = 0 := by
  simp [pyIdx]

theorem pySlice_zero_left {α : Type} (l : List α) (b : ℤ) :
    pySlice l 0 b = l.take (pyIdx l.length b) := by
  simp [pySlice, pyIdx_zero]

/-- The three slices `l[:a]`, `l[a:b]`, `l[b:]` concatenate back to `l`
whenever `0 ≤ a ≤ b`. -/
theorem pySlice_trisection {α : Type} (l : List α) (a b : ℤ)
    (h0 : 0 ≤ a) (hab : a ≤ b) :
    pySlice l 0 a ++ pySlice l a b ++ pySliceFrom l b = l := by
  have h0b : 0 ≤ b := le_trans h0 hab
  have hAB : pyIdx l.length a ≤ pyIdx l.length b := by
    rw [pyIdx_of_nonneg h0, pyIdx_of_nonneg h0b]
    exact min_le_min (Int.toNat_le_toNat hab) (le_refl _)
  rw [pySlice_zero_left]
  unfold pySlice pySliceFrom
  have h1 : l.take (pyIdx l.length a) = (l.take (pyIdx l.length b)).take (pyIdx l.length a) := by
    rw [List.take_take, min_eq_left hAB]
  rw [h1, List.take_append_drop, List.take_append_drop]

/-- A Python slice `l[a:a]` is empty. -/
theorem pySlice_self {α : Type} (l : List α) (a : ℤ) : pySlice l a a = [] := by
  rw [pySlice]
  apply List.drop_eq_nil_of_le
  rw [List.length_take]
  omega

theorem intTrunc_nonneg {q : ℚ} (h : 0 ≤ q) : 0 ≤ intTrunc q := by
  rw [intTrunc, if_pos h]
  exact Int.floor_nonneg.mpr h

theorem resolveSize_nonneg (len : ℕ) {s : ℚ} (hs : 0 ≤ s) :
    0 ≤ resolveSize len s := by
  rw [resolveSize]
  split
  · exact intTrunc_nonneg (mul_nonneg (Nat.cast_nonneg len) hs)
  · exact intTrunc_nonneg hs

/-- For a fraction `0 ≤ s ≤ 1`, the resolved size is `⌊len * s⌋`. -/
theorem resolveSize_frac (len : ℕ) {s : ℚ} (h0 : 0 ≤ s) (h1 : s ≤ 1) :
    resolveSize len s = ⌊(len : ℚ) * s⌋ := by
  rw [resolveSize, if_pos h1, intTrunc,
    if_pos (mul_nonneg (Nat.cast_nonneg len) h0)]

theorem resolveSize_frac_le (len : ℕ) {s : ℚ} (h0 : 0 ≤ s) (h1 : s ≤ 1) :
    resolveSize len s ≤ len := by
  rw [resolveSize_frac len h0 h1]
  calc ⌊(len : ℚ) * s⌋ ≤ ⌊(len : ℚ)⌋ := by
        apply Int.floor_le_floor
        calc (len : ℚ) * s ≤ (len : ℚ) * 1 :=
              mul_le_mul_of_nonneg_left h1 (Nat.cast_nonneg len)
          _ = (len : ℚ) := mul_one _
    _ = (len : ℕ) := Int.floor_natCast len

theorem splitParts_def (l : List ℕ) (v t : ℚ) :
    splitParts l v t =
      (pySlice l 0
         (max 0 ((l.length : ℤ) - resolveSize l.length v - resolveSize l.length t)),
       pySlice l
         (max 0 ((l.length : ℤ) - resolveSize l.length v - resolveSize l.length t))
         (max 0 ((l.length : ℤ) - resolveSize l.length v - resolveSize l.length t)
           + resolveSize l.length v),
       pySliceFrom l
         (max 0 ((l.length : ℤ) - resolveSize l.length v - resolveSize l.length t)
           + resolveSize l.length v)) := rfl

/-- The three groups concatenate back to the index list (no index lost or
duplicated), provided the requested validation size is non-negative. -/
theorem splitParts_concat (l : List ℕ) (v t : ℚ) (hv : 0 ≤ v) :
    (splitParts l v t).1 ++ (splitParts l v t).2.1 ++ (splitParts l v t).2.2 = l := by
  rw [splitParts_def]
  exact pySlice_trisection l _ _ (le_max_left _ _)
    (le_add_of_nonneg_right (resolveSize_nonneg _ hv))

theorem pySlice_length_zero_left {α : Type} (l : List α) {b : ℤ} (h0 : 0 ≤ b) :
    (pySlice l 0 b).length = min b.toNat l.length := by
  rw [pySlice_zero_left, List.length_take, pyIdx_of_nonneg h0]
  omega

theorem pySlice_length_mid {α : Type} (l : List α) {a b : ℤ}
    (h0 : 0 ≤ a) (h0b : 0 ≤ b) :
    (pySlice l a b).length = min b.toNat l.length - min a.toNat l.length := by
  rw [pySlice, List.length_drop, List.length_take,
    pyIdx_of_nonneg h0, pyIdx_of_nonneg h0b]
  omega

theorem pySliceFrom_length {α : Type} (l : List α) {a : ℤ} (h0 : 0 ≤ a) :
    (pySliceFrom l a).length = l.length - min a.toNat l.length := by
  rw [pySliceFrom, List.length_drop, pyIdx_of_nonneg h0]

/-- `train_val_test_split` with `shuffle = False` ignores the generator. -/
theorem tvts_false (n : ℕ) (v t : ℚ) (prg : List ℕ → List ℕ) :
    train_val_test_split n v t false prg = splitParts (List.range n) v t := rfl

theorem splitParts_eval (l : List ℕ) (v t : ℚ) (rv rt : ℤ)
    (hv : resolveSize l.length v = rv) (ht : resolveSize l.length t = rt) :
    splitParts l v t =
      (pySlice l 0 (max 0 ((l.length : ℤ) - rv - rt)),
       pySlice l (max 0 ((l.length : ℤ) - rv - rt))
         (max 0 ((l.length : ℤ) - rv - rt) + rv),
       pySliceFrom l (max 0 ((l.length : ℤ) - rv - rt) + rv)) := by
  subst hv; subst ht; exact splitParts_def l v t

theorem drop_range' : ∀ (m s k : ℕ), (List.range' s k).drop m = List.range' (s + m) (k - m)
  | 0, s, k => by simp
  | m + 1, s, 0 => by simp
  | m + 1, s, k + 1 => by
      rw [List.range'_succ, List.drop_succ_cons, drop_range' m (s + 1) k]
      congr 1
      all_goals omega

/-! ### Infrastructure: validator and parser -/

/-- `validateZip` raises exactly at the first differing pair. -/
theorem validateZip_eq (ps : List (String × String)) :
    validateZip ps =
      match ps.find? (fun q => decide (q.1 ≠ q.2)) with
      | none => Except.ok ()
      | some p => Except.error (MismatchError.nameMismatch p.1 p.2) := by
  induction ps with
  | nil => rfl
  | cons hd tl ih =>
      obtain ⟨a, b⟩ := hd
      by_cases hab : a = b
      · subst hab
        simpa [validateZip, List.find?] using ih
      · simp [validateZip, List.find?, hab]

theorem mem_zip_self {α : Type} {l : List α} {p : α × α}
    (hp : p ∈ l.zip l) : p.1 = p.2 := by
  induction l with
  | nil => simp [List.zip] at hp
  | cons a tl ih =>
      rw [List.zip_cons_cons] at hp
      rcases List.mem_cons.mp hp with rfl | hp'
      · rfl
      · exact ih hp'

/-- If every name parses, `parse_images` succeeds. -/
theorem parse_images_ok_of_all (images : List String)
    (h : ∀ img ∈ images, parseImageName img ≠ none) :
    ∃ l, parse_images images = Except.ok l := by
  induction images with
  | nil => exact ⟨[], rfl⟩
  | cons img rest ih =>
      obtain ⟨r, hr⟩ := Option.ne_none_iff_exists'.mp (h img (by simp))
      obtain ⟨l', hl'⟩ := ih (fun i hi => h i (by simp [hi]))
      exact ⟨r :: l', by simp [parse_images, hr, hl']⟩

/-- A successful `parse_images` returns one parsed record per input name,
in input order. -/
theorem parse_images_ok_map (images : List String)
    (l : List (String × String × ℕ × String))
    (h : parse_images images = Except.ok l) :
    images.map parseImageName = l.map some := by
  induction images generalizing l with
  | nil =>
      simp [parse_images] at h
      subst h
      rfl
  | cons img rest ih =>
      cases hr : parseImageName img with
      | none => simp [parse_images, hr] at h
      | some r =>
          cases hrest : parse_images rest with
          | error e => simp [parse_images, hr, hrest] at h
          | ok l' =>
              simp only [parse_images, hr, hrest] at h
              cases h
              simp [hr, ih l' hrest]

theorem parse_images_ok_all (images : List String)
    (l : List (String × String × ℕ × String))
    (h : parse_images images = Except.ok l) :
    ∀ img ∈ images, parseImageName img ≠ none := by
  intro img hmem hnone
  have hmap := parse_images_ok_map images l h
  have : parseImageName img ∈ images.map parseImageName := List.mem_map_of_mem _ hmem
  rw [hmap] at this
  obtain ⟨y, -, hy⟩ := List.mem_map.mp this
  rw [hnone] at hy
  exact Option.noConfusion hy

/-- `parse_images` raises `cannotParse` at the first unparseable name. -/
theorem parse_images_error_at_first (images : List String) (bad : String)
    (h : images.find? (fun i => (parseImageName i).isNone) = some bad) :
    parse_images images = Except.error (ParseError.cannotParse bad) := by
  induction images with
  | nil => simp [List.find?] at h
  | cons img rest ih =>
      cases hr : parseImageName img with
      | none =>
          rw [List.find?] at h
          rw [hr] at h
          simp at h
          subst h
          simp [parse_images, hr]
      | some r =>
          rw [List.find?] at h
          rw [hr] at h
          simp at h
          simp [parse_images, hr, ih h]

/-! ### Infrastructure: metadata filter -/

/-- The record predicate the two selector sets induce. -/
def filterPred : Option (List ℕ) → Option (List String) →
    (String × String × ℕ × String) → Bool
  | none, none, _ => true
  | some a, none, x => decide (x.2.2.1 ∈ a)
  | none, some pl, x => decide (x.2.2.2 ∈ pl)
  | some a, some pl, x => decide (x.2.2.1 ∈ a) && decide (x.2.2.2 ∈ pl)

theorem filter_parsed_images_eq_filter
    (l : List (String × String × ℕ × String))
    (apas : Option (List ℕ)) (planes : Option (List String)) :
    filter_parsed_images l apas planes = l.filter (fun x => filterPred apas planes x) := by
  cases apas <;> cases planes <;>
    simp [filter_parsed_images, filterPred, List.filter_filter, Bool.and_comm]

/-! ### Infrastructure: decimal digits and the round trip -/

theorem digitChar_isDigit {d : ℕ} (h : d < 10) : (digitChar d).isDigit = true := by
  interval_cases d <;> decide

theorem digitChar_toNat {d : ℕ} (h : d < 10) : (digitChar d).toNat - 48 = d := by
  interval_cases d <;> decide

theorem natOfDigits_append_singleton (xs : List Char) (c : Char) :
    natOfDigits (xs ++ [c]) = 10 * natOfDigits xs + (c.toNat - 48) := by
  simp [natOfDigits, List.foldl_append]

theorem natOfDigits_singleton (c : Char) : natOfDigits [c] = c.toNat - 48 := by
  simp [natOfDigits]

theorem natDigitsAux_spec : ∀ (fuel n : ℕ), n < fuel →
    (∀ c ∈ natDigitsAux fuel n, c.isDigit = true) ∧
    natDigitsAux fuel n ≠ [] ∧
    natOfDigits (natDigitsAux fuel n) = n := by
  intro fuel
  induction fuel with
  | zero => intro n hn; omega
  | succ f ih =>
      intro n hn
      by_cases h10 : n < 10
      · refine ⟨?_, ?_, ?_⟩ <;> simp [natDigitsAux, h10]
        · exact digitChar_isDigit h10
        · rw [natOfDigits_singleton, digitChar_toNat h10]
      · have hdiv : n / 10 < f := by
          have h1 : n / 10 < n := Nat.div_lt_self (by omega) (by norm_num)
          omega
        obtain ⟨ihd, ihne, ihval⟩ := ih (n / 10) hdiv
        refine ⟨?_, ?_, ?_⟩
        · intro c hc
          rw [natDigitsAux] at hc
          rw [if_neg h10] at hc
          rcases List.mem_append.mp hc with hc | hc
          · exact ihd c hc
          · rcases List.mem_singleton.mp hc with rfl
            exact digitChar_isDigit (Nat.mod_lt _ (by norm_num))
        · rw [natDigitsAux, if_neg h10]
          simp
        · rw [natDigitsAux, if_neg h10, natOfDigits_append_singleton, ihval,
            digitChar_toNat (Nat.mod_lt _ (by norm_num))]
          omega

theorem natDigits_isDigit (n : ℕ) : ∀ c ∈ natDigits n, c.isDigit = true :=
  (natDigitsAux_spec (n + 1) n (Nat.lt_succ_self n)).1

theorem natDigits_ne_nil (n : ℕ) : natDigits n ≠ [] :=
  (natDigitsAux_spec (n + 1) n (Nat.lt_succ_self n)).2.1

theorem natOfDigits_natDigits (n : ℕ) : natOfDigits (natDigits n) = n :=
  (natDigitsAux_spec (n + 1) n (Nat.lt_succ_self n)).2.2

theorem takeWhile_append_cons {p : Char → Bool} (xs : List Char) (y : Char)
    (ys : List Char) (hxs : ∀ x ∈ xs, p x = true) (hy : p y = false) :
    (xs ++ y :: ys).takeWhile p = xs := by
  induction xs with
  | nil => simp [List.takeWhile_cons, hy]
  | cons a tl ih =>
      have ha : p a = true := hxs a (by simp)
      simp only [List.cons_append, List.takeWhile_cons, ha, if_true]
      rw [ih (fun x hx => hxs x (by simp [hx]))]

theorem dropWhile_append_cons {p : Char → Bool} (xs : List Char) (y : Char)
    (ys : List Char) (hxs : ∀ x ∈ xs, p x = true) (hy : p y = false) :
    (xs ++ y :: ys).dropWhile p = y :: ys := by
  induction xs with
  | nil => simp [List.dropWhile_cons, hy]
  | cons a tl ih =>
      have ha : p a = true := hxs a (by simp)
      simp only [List.cons_append, List.dropWhile_cons, ha, if_true]
      exact ih (fun x hx => hxs x (by simp [hx]))

theorem stripTrailingNewline_concat_z (ys : List Char) :
    stripTrailingNewline (ys ++ ['z']) = ys ++ ['z'] := by
  rw [stripTrailingNewline, if_neg]
  rw [List.getLast?_concat]
  decide

/-- Character-level round trip: the parser recovers `(base, gid, category)`
from a formatted name, for any non-empty newline-free base. -/
theorem parseImageChars_roundtrip (B : List Char) (gid : ℕ) (c : Char)
    (hB : B ≠ []) (hnl : ∀ ch ∈ B, ch ≠ '\n')
    (hc : c = 'U' ∨ c = 'V' ∨ c = 'W') :
    parseImageChars (B ++ '-' :: natDigits gid ++ '-' :: c :: ['.', 'n', 'p', 'z']) =
      some (String.mk B, gid, String.mk [c]) := by
  have hrev : (B ++ '-' :: natDigits gid ++ '-' :: c :: ['.', 'n', 'p', 'z']).reverse =
      'z' :: 'p' :: 'n' :: '.' :: c :: '-' :: ((natDigits gid).reverse ++ '-' :: B.reverse) := by
    simp
  rw [parseImageChars, hrev]
  simp only [if_pos hc]
  have hdig : ∀ x ∈ (natDigits gid).reverse, Char.isDigit x = true := by
    intro x hx
    exact natDigits_isDigit gid x (List.mem_reverse.mp hx)
  have hyph : Char.isDigit '-' = false := by decide
  rw [takeWhile_append_cons _ _ _ hdig hyph, dropWhile_append_cons _ _ _ hdig hyph]
  obtain ⟨d, ds, hD⟩ : ∃ d ds, (natDigits gid).reverse = d :: ds := by
    cases hrd : (natDigits gid).reverse with
    | nil => exact absurd (List.reverse_eq_nil_iff.mp hrd) (natDigits_ne_nil gid)
    | cons d ds => exact ⟨d, ds, rfl⟩
  rw [hD]
  have hBrev : B.reverse ≠ [] := by
    simpa using hB
  have hBall : B.reverse.all (fun ch => ch ≠ '\n') = true := by
    rw [List.all_eq_true]
    intro ch hch
    exact decide_eq_true (hnl ch (List.mem_reverse.mp hch))
  show (if B.reverse ≠ [] ∧ B.reverse.all (fun ch => ch ≠ '\n') then
      some (String.mk B.reverse.reverse, natOfDigits (d :: ds).reverse, String.mk [c])
    else none) = some (String.mk B, gid, String.mk [c])
  rw [if_pos (And.intro hBrev hBall), ← hD]
  rw [List.reverse_reverse, List.reverse_reverse, natOfDigits_natDigits]

theorem mk_data_eq (s : String) : String.mk s.data = s := by
  cases s
  rfl

theorem parseImageName_eq_some {s b : String} {a : ℕ} {p : String}
    (h : parseImageChars (stripTrailingNewline s.data) = some (b, a, p)) :
    parseImageName s = some (s, b, a, p) := by
  simp only [parseImageName, h]

/-! ### Claim theorems -/

/-- C4 (amended): for every triple `(base, group_id, category)` with `base` a
non-empty string that contains no newline character, `group_id` a natural
number and `category` one of `U`, `V`, `W`, formatting the name as
`<base>-<group_id>-<category>.npz` and parsing it with the name parser
reproduces exactly the original triple; and parsing `"run1-7-U.npz"` yields
`("run1-7-U.npz", "run1", 7, "U")`. -/
theorem toytools_C4 (base : String) (gid : ℕ) (cat : String)
    (hbase : base ≠ "") (hnl : ∀ ch ∈ base.data, ch ≠ '\n')
    (hcat : cat = "U" ∨ cat = "V" ∨ cat = "W") :
    parseImageName (formatImageName base gid cat) =
      some (formatImageName base gid cat, base, gid, cat) ∧
    parse_images ["run1-7-U.npz"] =
      Except.ok [("run1-7-U.npz", "run1", 7, "U")] := by
  constructor
  · have hbd : base.data ≠ [] := by
      intro h
      apply hbase
      rw [← mk_data_eq base, h]
    obtain ⟨c, hcatc, hc⟩ :
        ∃ ch, cat = String.mk [ch] ∧ (ch = 'U' ∨ ch = 'V' ∨ ch = 'W') := by
      rcases hcat with h | h | h <;> subst h
      · exact ⟨'U', rfl, Or.inl rfl⟩
      · exact ⟨'V', rfl, Or.inr (Or.inl rfl)⟩
      · exact ⟨'W', rfl, Or.inr (Or.inr rfl)⟩
    subst hcatc
    apply parseImageName_eq_some
    have hdata : (formatImageName base gid (String.mk [c])).data =
        base.data ++ '-' :: natDigits gid ++ '-' :: c :: ['.', 'n', 'p', 'z'] := by
      simp [formatImageName]
    have hshape : base.data ++ '-' :: natDigits gid ++ '-' :: c :: ['.', 'n', 'p', 'z'] =
        (base.data ++ '-' :: natDigits gid ++ '-' :: c :: ['.', 'n', 'p']) ++ ['z'] := by
      simp
    rw [hdata, hshape, stripTrailingNewline_concat_z, ← hshape]
    rw [parseImageChars_roundtrip base.data gid c hbd hnl hc]
  · decide

/-- C4, counterexample to the unamended claim: over arbitrary non-empty
bases the round trip fails, e.g. for the base `"\n"` (Python's `.` does not
match a newline, so the formatted name does not parse at all). -/
theorem toytools_C4_cex :
    parseImageName (formatImageName "\n" 7 "U") ≠
      some (formatImageName "\n" 7 "U", "\n", 7, "U") := by decide

theorem toytools_C4_witness :
    ("run1" ≠ "" ∧ (∀ ch ∈ "run1".data, ch ≠ '\n') ∧
      ("U" = "U" ∨ "U" = "V" ∨ "U" = "W")) ∧
    parseImageName (formatImageName "run1" 7 "U") =
      some (formatImageName "run1" 7 "U", "run1", 7, "U") :=
  ⟨⟨by decide, by decide, Or.inl rfl⟩,
    (toytools_C4 "run1" 7 "U" (by decide) (by decide) (Or.inl rfl)).1⟩

/-- C5: the pair validator succeeds exactly when the two lists are equal;
on a length mismatch it reports both counts (before comparing any
elements), and on equal lengths with a differing position it reports the
first differing pair. -/
theorem toytools_C5 (imgs_fake imgs_real : List String) :
    (validate_toyzero_images imgs_fake imgs_real = Except.ok () ↔
      imgs_fake = imgs_real) ∧
    (imgs_fake.length ≠ imgs_real.length →
      validate_toyzero_images imgs_fake imgs_real =
        Except.error (MismatchError.countMismatch imgs_fake.length imgs_real.length)) ∧
    (imgs_fake.length = imgs_real.length →
      ∀ p : String × String,
        (imgs_fake.zip imgs_real).find? (fun q => decide (q.1 ≠ q.2)) = some p →
        validate_toyzero_images imgs_fake imgs_real =
          Except.error (MismatchError.nameMismatch p.1 p.2)) := by
  refine ⟨⟨?_, ?_⟩, ?_, ?_⟩
  · intro hok
    by_cases hlen : imgs_fake.length = imgs_real.length
    · rw [validate_toyzero_images, if_neg (not_not_intro hlen), validateZip_eq] at hok
      cases hfind : (imgs_fake.zip imgs_real).find? (fun q => decide (q.1 ≠ q.2)) with
      | some p => rw [hfind] at hok; exact Except.noConfusion hok
      | none =>
          apply List.ext_getElem hlen
          intro i h1 h2
          have hmem : (imgs_fake[i], imgs_real[i]) ∈ imgs_fake.zip imgs_real := by
            have hz : i < (imgs_fake.zip imgs_real).length := by
              rw [List.length_zip]; omega
            have := List.getElem_mem hz
            rwa [List.getElem_zip] at this
          have hq := List.find?_eq_none.mp hfind _ hmem
          simpa using hq
    · rw [validate_toyzero_images, if_pos hlen] at hok
      exact Except.noConfusion hok
  · intro heq
    subst heq
    rw [validate_toyzero_images, if_neg (not_not_intro rfl), validateZip_eq]
    have hfind : (imgs_fake.zip imgs_fake).find? (fun q => decide (q.1 ≠ q.2)) = none := by
      apply List.find?_eq_none.mpr
      intro q hq
      simp [mem_zip_self hq]
    rw [hfind]
  · intro hlen
    rw [validate_toyzero_images, if_pos hlen]
  · intro hlen p hp
    rw [validate_toyzero_images, if_neg (not_not_intro hlen), validateZip_eq, hp]

theorem toytools_C5_witness :
    (["a"].length = ["b"].length) ∧
    ((["a"].zip ["b"]).find? (fun q => decide (q.1 ≠ q.2)) = some ("a", "b")) ∧
    (["a"].length ≠ ([] : List String).length) ∧
    validate_toyzero_images ["a"] ["b"] =
      Except.error (MismatchError.nameMismatch "a" "b") ∧
    validate_toyzero_images ["a"] [] =
      Except.error (MismatchError.countMismatch 1 0) ∧
    (validate_toyzero_images ["a"] ["a"] = Except.ok () ↔
      (["a"] : List String) = ["a"]) :=
  ⟨rfl, by decide, by decide,
   (toytools_C5 ["a"] ["b"]).2.2 rfl ("a", "b") (by decide),
   (toytools_C5 ["a"] []).2.1 (by decide),
   (toytools_C5 ["a"] ["a"]).1⟩

/-- C7: with both selectors absent, `filter_images` is the identity and
raises no error, for every input list (parsing is skipped entirely). -/
theorem toytools_C7 (images : List String) :
    filter_images images none none = Except.ok images := by
  rw [filter_images, if_pos (And.intro rfl rfl)]

/-- C8: metadata filtering is idempotent, returns an order-preserving
subsequence of its input, and keeps exactly the records passing both
provided selectors (`filterPred`). -/
theorem toytools_C8 (l : List (String × String × ℕ × String))
    (apas : Option (List ℕ)) (planes : Option (List String)) :
    filter_parsed_images (filter_parsed_images l apas planes) apas planes =
      filter_parsed_images l apas planes ∧
    (filter_parsed_images l apas planes).Sublist l ∧
    filter_parsed_images l apas planes =
      l.filter (fun x => filterPred apas planes x) ∧
    (∀ x, x ∈ filter_parsed_images l apas planes ↔
      x ∈ l ∧ filterPred apas planes x = true) := by
  refine ⟨?_, ?_, filter_parsed_images_eq_filter l apas planes, ?_⟩
  · rw [filter_parsed_images_eq_filter l apas planes,
      filter_parsed_images_eq_filter (l.filter fun x => filterPred apas planes x)
        apas planes, List.filter_filter]
    simp [Bool.and_self]
  · rw [filter_parsed_images_eq_filter l apas planes]
    exact List.filter_sublist l
  · intro x
    rw [filter_parsed_images_eq_filter l apas planes]
    exact List.mem_filter

/-- C9: `parse_images` succeeds with one record per input name, in input
order, exactly when every name parses; otherwise it fails with
`cannotParse` naming the first name that does not parse, producing no
partial result. -/
theorem toytools_C9 (images : List String) :
    ((∃ l, parse_images images = Except.ok l ∧
        images.map parseImageName = l.map some)
      ↔ ∀ img ∈ images, parseImageName img ≠ none) ∧
    (∀ bad, images.find? (fun i => (parseImageName i).isNone) = some bad →
      parse_images images = Except.error (ParseError.cannotParse bad)) := by
  constructor
  · constructor
    · rintro ⟨l, hok, -⟩
      exact parse_images_ok_all images l hok
    · intro hall
      obtain ⟨l, hok⟩ := parse_images_ok_of_all images hall
      exact ⟨l, hok, parse_images_ok_map images l hok⟩
  · intro bad hbad
    exact parse_images_error_at_first images bad hbad

theorem toytools_C9_witness :
    (∀ img ∈ ["run1-7-U.npz"], parseImageName img ≠ none) ∧
    (["run1-7-U.npz", "x"].find? (fun i => (parseImageName i).isNone) = some "x") ∧
    (∃ l, parse_images ["run1-7-U.npz"] = Except.ok l ∧
      ["run1-7-U.npz"].map parseImageName = l.map some) ∧
    parse_images ["run1-7-U.npz", "x"] =
      Except.error (ParseError.cannotParse "x") :=
  ⟨by decide, by decide,
   (toytools_C9 ["run1-7-U.npz"]).1.mpr (by decide),
   (toytools_C9 ["run1-7-U.npz", "x"]).2 "x" (by decide)⟩

/-- C1: for any `n`, fractions `val_size`, `test_size` in `[0,1]` and any
shuffle flag (with the random source an actual permutation), the three
index groups are pairwise disjoint, contain no duplicate, their union is
exactly `{0, …, n-1}`, and their lengths sum to `n`. -/
theorem toytools_C1 (n : ℕ) (v t : ℚ) (sh : Bool) (prg : List ℕ → List ℕ)
    (hprg : (prg (List.range n)).Perm (List.range n))
    (hv0 : 0 ≤ v) (hv1 : v ≤ 1) (ht0 : 0 ≤ t) (ht1 : t ≤ 1) :
    ((train_val_test_split n v t sh prg).1 ++ (train_val_test_split n v t sh prg).2.1 ++
        (train_val_test_split n v t sh prg).2.2).Perm (List.range n) ∧
    ((train_val_test_split n v t sh prg).1 ++ (train_val_test_split n v t sh prg).2.1 ++
        (train_val_test_split n v t sh prg).2.2).Nodup ∧
    (train_val_test_split n v t sh prg).1.length +
        (train_val_test_split n v t sh prg).2.1.length +
        (train_val_test_split n v t sh prg).2.2.length = n ∧
    (∀ i : ℕ,
      (i ∈ (train_val_test_split n v t sh prg).1 ∨
       i ∈ (train_val_test_split n v t sh prg).2.1 ∨
       i ∈ (train_val_test_split n v t sh prg).2.2) ↔ i < n) ∧
    (train_val_test_split n v t sh prg).1.Disjoint (train_val_test_split n v t sh prg).2.1 ∧
    (train_val_test_split n v t sh prg).1.Disjoint (train_val_test_split n v t sh prg).2.2 ∧
    (train_val_test_split n v t sh prg).2.1.Disjoint (train_val_test_split n v t sh prg).2.2 := by
  have hl : (if sh then prg (List.range n) else List.range n).Perm (List.range n) := by
    cases sh
    · simp
    · simpa using hprg
  have hconcat : (train_val_test_split n v t sh prg).1 ++
      (train_val_test_split n v t sh prg).2.1 ++
      (train_val_test_split n v t sh prg).2.2 =
      (if sh then prg (List.range n) else List.range n) := by
    rw [tvts_eq_splitParts]
    exact splitParts_concat _ v t hv0
  have hperm : ((train_val_test_split n v t sh prg).1 ++
      (train_val_test_split n v t sh prg).2.1 ++
      (train_val_test_split n v t sh prg).2.2).Perm (List.range n) := by
    rw [hconcat]; exact hl
  have hnodup : ((train_val_test_split n v t sh prg).1 ++
      (train_val_test_split n v t sh prg).2.1 ++
      (train_val_test_split n v t sh prg).2.2).Nodup :=
    hperm.nodup_iff.mpr (List.nodup_range n)
  have hlen : (train_val_test_split n v t sh prg).1.length +
      (train_val_test_split n v t sh prg).2.1.length +
      (train_val_test_split n v t sh prg).2.2.length = n := by
    have := hperm.length_eq
    simpa [List.length_append, Nat.add_assoc] using this
  obtain ⟨hn12, hn3, hd12_3⟩ := List.nodup_append.mp hnodup
  obtain ⟨hn1, hn2, hd12⟩ := List.nodup_append.mp hn12
  obtain ⟨hd13, hd23⟩ := List.disjoint_append_left.mp hd12_3
  refine ⟨hperm, hnodup, hlen, ?_, hd12, hd13, hd23⟩
  intro i
  rw [← List.mem_range (n := n), ← hperm.mem_iff]
  simp [List.mem_append, or_assoc]

theorem toytools_C1_witness :
    ((List.range 5).reverse.Perm (List.range 5)) ∧
    ((0 : ℚ) ≤ 1/2) ∧ ((1 : ℚ)/2 ≤ 1) ∧
    ((train_val_test_split 5 (1/2) (1/2) true List.reverse).1.length +
      (train_val_test_split 5 (1/2) (1/2) true List.reverse).2.1.length +
      (train_val_test_split 5 (1/2) (1/2) true List.reverse).2.2.length = 5) :=
  ⟨by decide, by norm_num, by norm_num,
   (toytools_C1 5 (1/2) (1/2) true List.reverse (by decide)
     (by norm_num) (by norm_num) (by norm_num) (by norm_num)).2.2.1⟩

/-- C2: sizes are resolved to absolute counts independently of each other
(`resolveSize`: a value `≤ 1` is a fraction scaled by `n`, a value `> 1` an
absolute count, truncated toward zero), and the two worked examples of the
spec hold. -/
theorem toytools_C2 :
    (∀ (n : ℕ) (v t : ℚ) (prg : List ℕ → List ℕ),
      0 ≤ v → 0 ≤ t → resolveSize n v + resolveSize n t ≤ (n : ℤ) →
      ((train_val_test_split n v t false prg).1.length : ℤ) =
          (n : ℤ) - resolveSize n v - resolveSize n t ∧
      ((train_val_test_split n v t false prg).2.1.length : ℤ) = resolveSize n v ∧
      ((train_val_test_split n v t false prg).2.2.length : ℤ) = resolveSize n t) ∧
    (∀ prg : List ℕ → List ℕ,
      train_val_test_split 10 0.2 0.2 false prg =
        ([0, 1, 2, 3, 4, 5], [6, 7], [8, 9])) ∧
    (∀ prg : List ℕ → List ℕ,
      train_val_test_split 10 2 3 false prg =
        ([0, 1, 2, 3, 4], [5, 6], [7, 8, 9])) := by
  refine ⟨?_, ?_, ?_⟩
  · intro n v t prg hv ht hsum
    have hrv := resolveSize_nonneg n hv
    have hrt := resolveSize_nonneg n ht
    rw [tvts_false, splitParts_eval (List.range n) v t (resolveSize n v)
      (resolveSize n t) (by rw [List.length_range]) (by rw [List.length_range])]
    dsimp only
    have hA0 : (0 : ℤ) ≤
        max 0 ((((List.range n).length : ℕ) : ℤ) - resolveSize n v - resolveSize n t) :=
      le_max_left _ _
    have hB0 : (0 : ℤ) ≤
        max 0 ((((List.range n).length : ℕ) : ℤ) - resolveSize n v - resolveSize n t)
          + resolveSize n v :=
      add_nonneg hA0 hrv
    rw [pySlice_length_zero_left _ hA0, pySlice_length_mid _ hA0 hB0,
      pySliceFrom_length _ hB0, List.length_range]
    refine ⟨?_, ?_, ?_⟩ <;> omega
  · intro prg
    have h1 : resolveSize (List.range 10).length 0.2 = 2 := by
      rw [List.length_range, resolveSize_frac 10 (by norm_num) (by norm_num)]
      norm_num
    rw [tvts_false, splitParts_eval _ _ _ 2 2 h1 h1]
    decide
  · intro prg
    have h2 : resolveSize (List.range 10).length 2 = 2 := by
      rw [List.length_range, resolveSize]
      norm_num [intTrunc]
    have h3 : resolveSize (List.range 10).length 3 = 3 := by
      rw [List.length_range, resolveSize]
      norm_num [intTrunc]
    rw [tvts_false, splitParts_eval _ _ _ 2 3 h2 h3]
    decide

theorem toytools_C2_witness :
    ((0 : ℚ) ≤ 0.2) ∧ (resolveSize 10 0.2 + resolveSize 10 0.2 ≤ (10 : ℤ)) ∧
    ((train_val_test_split 10 0.2 0.2 false id).2.1.length : ℤ) =
      resolveSize 10 0.2 :=
  ⟨by norm_num,
   by rw [resolveSize_frac 10 (by norm_num) (by norm_num)]; norm_num,
   (toytools_C2.1 10 0.2 0.2 id (by norm_num) (by norm_num)
     (by rw [resolveSize_frac 10 (by norm_num) (by norm_num)]; norm_num)).2.1⟩

/-- C3: the train group has length `max 0 (n - val_size - test_size)` after
size resolution (never negative), and when the resolved sizes exceed `n`
the train group is empty, the val and test groups exhaust the index list,
and the test group is no longer than its nominal resolved size. -/
theorem toytools_C3 (n : ℕ) (v t : ℚ) (sh : Bool) (prg : List ℕ → List ℕ)
    (hprg : (prg (List.range n)).Perm (List.range n))
    (hv0 : 0 ≤ v) (ht0 : 0 ≤ t) :
    ((train_val_test_split n v t sh prg).1.length : ℤ) =
        max 0 ((n : ℤ) - resolveSize n v - resolveSize n t) ∧
    ((n : ℤ) < resolveSize n v + resolveSize n t →
      (train_val_test_split n v t sh prg).1 = [] ∧
      (train_val_test_split n v t sh prg).2.1 ++
          (train_val_test_split n v t sh prg).2.2 =
        (if sh then prg (List.range n) else List.range n) ∧
      (train_val_test_split n v t sh prg).2.1.length +
          (train_val_test_split n v t sh prg).2.2.length = n ∧
      ((train_val_test_split n v t sh prg).2.2.length : ℤ) ≤ resolveSize n t) := by
  have hlen : (if sh then prg (List.range n) else List.range n).length = n := by
    cases sh
    · simp
    · simpa using hprg.length_eq
  have hrv := resolveSize_nonneg n hv0
  have hrt := resolveSize_nonneg n ht0
  rw [tvts_eq_splitParts, splitParts_eval _ v t (resolveSize n v) (resolveSize n t)
    (by rw [hlen]) (by rw [hlen])]
  set l := if sh then prg (List.range n) else List.range n with hldef
  dsimp only
  rw [hlen]
  have hA0 : (0 : ℤ) ≤ max 0 ((n : ℤ) - resolveSize n v - resolveSize n t) :=
    le_max_left _ _
  have hB0 : (0 : ℤ) ≤ max 0 ((n : ℤ) - resolveSize n v - resolveSize n t)
      + resolveSize n v := add_nonneg hA0 hrv
  constructor
  · rw [pySlice_length_zero_left _ hA0, hlen]
    omega
  · intro hover
    have hA : max 0 ((n : ℤ) - resolveSize n v - resolveSize n t) = 0 := by
      omega
    rw [hA, zero_add]
    have htri := pySlice_trisection l 0 (resolveSize n v) (le_refl 0) hrv
    rw [pySlice_self, List.nil_append] at htri
    have hsum := congrArg List.length htri
    rw [List.length_append, hlen] at hsum
    refine ⟨pySlice_self l _, htri, hsum, ?_⟩
    rw [pySliceFrom_length l hrv, hlen]
    omega

theorem toytools_C3_witness :
    ((id (List.range 1)).Perm (List.range 1)) ∧ ((0 : ℚ) ≤ 1) ∧
    ((1 : ℤ) < resolveSize 1 1 + resolveSize 1 1) ∧
    (train_val_test_split 1 1 1 false id).1 = [] :=
  ⟨List.Perm.refl _, zero_le_one,
   by rw [resolveSize_frac 1 zero_le_one (le_refl 1)]; norm_num,
   ((toytools_C3 1 1 1 false id (List.Perm.refl _) zero_le_one zero_le_one).2
     (by rw [resolveSize_frac 1 zero_le_one (le_refl 1)]; norm_num)).1⟩

/-- C6: the two-way split is the three-way split at `val_size = 0` with the
(always empty) validation group discarded, and the spec's worked example
holds. -/
theorem toytools_C6 (n : ℕ) (t : ℚ) (sh : Bool) (prg : List ℕ → List ℕ) :
    train_test_split n t sh prg =
      ((train_val_test_split n 0 t sh prg).1,
       (train_val_test_split n 0 t sh prg).2.2) ∧
    (train_val_test_split n 0 t sh prg).2.1 = [] ∧
    train_test_split 10 (3/10) false prg = ([0, 1, 2, 3, 4, 5, 6], [7, 8, 9]) := by
  refine ⟨rfl, ?_, ?_⟩
  · rw [tvts_eq_splitParts]
    set l := if sh then prg (List.range n) else List.range n with hldef
    have hrv : resolveSize l.length 0 = 0 := by
      rw [resolveSize, if_pos (by norm_num : (0 : ℚ) ≤ 1)]
      norm_num [intTrunc]
    rw [splitParts_eval l 0 t 0 (resolveSize l.length t) hrv rfl]
    dsimp only
    rw [add_zero]
    exact pySlice_self l _
  · have h0 : resolveSize (List.range 10).length 0 = 0 := by
      rw [List.length_range, resolveSize, if_pos (by norm_num : (0 : ℚ) ≤ 1)]
      norm_num [intTrunc]
    have h3 : resolveSize (List.range 10).length (3/10) = 3 := by
      rw [List.length_range, resolveSize_frac 10 (by norm_num) (by norm_num)]
      norm_num
    have he : train_test_split 10 (3/10) false prg =
        ((train_val_test_split 10 0 (3/10) false prg).1,
         (train_val_test_split 10 0 (3/10) false prg).2.2) := rfl
    rw [he, tvts_false, splitParts_eval _ 0 (3/10) 0 3 h0 h3]
    decide

/-- C10: with `shuffle = False` the split ignores the random source — any
two sources give identical output — and the three groups are consecutive
contiguous ascending ranges covering `[0, n)`. -/
theorem toytools_C10 (n : ℕ) (v t : ℚ) (prg1 prg2 : List ℕ → List ℕ)
    (hv0 : 0 ≤ v) :
    train_val_test_split n v t false prg1 = train_val_test_split n v t false prg2 ∧
    ∃ a b c : ℕ, a + b + c = n ∧
      train_val_test_split n v t false prg1 =
        (List.range' 0 a, List.range' a b, List.range' (a + b) c) := by
  constructor
  · rfl
  · have hrv := resolveSize_nonneg n hv0
    rw [tvts_false, splitParts_def]
    simp only [List.length_range]
    set rv := resolveSize n v with hrvdef
    set rt := resolveSize n t with hrtdef
    set A : ℤ := max 0 ((n : ℤ) - rv - rt) with hAdef
    have hA0 : (0 : ℤ) ≤ A := le_max_left _ _
    have hB0 : (0 : ℤ) ≤ A + rv := add_nonneg hA0 hrv
    have hAB : A ≤ A + rv := le_add_of_nonneg_right hrv
    have hmono : pyIdx n A ≤ pyIdx n (A + rv) := by
      rw [pyIdx_of_nonneg hA0, pyIdx_of_nonneg hB0]
      exact min_le_min (Int.toNat_le_toNat hAB) (le_refl _)
    have hAle : pyIdx n A ≤ n := by
      rw [pyIdx_of_nonneg hA0]; omega
    have hBle : pyIdx n (A + rv) ≤ n := by
      rw [pyIdx_of_nonneg hB0]; omega
    refine ⟨pyIdx n A, pyIdx n (A + rv) - pyIdx n A, n - pyIdx n (A + rv), by omega, ?_⟩
    have h1 : pySlice (List.range n) 0 A = List.range' 0 (pyIdx n A) := by
      rw [pySlice_zero_left, List.length_range, List.take_range,
        min_eq_left hAle, List.range_eq_range']
    have h2 : pySlice (List.range n) A (A + rv) =
        List.range' (pyIdx n A) (pyIdx n (A + rv) - pyIdx n A) := by
      rw [pySlice, List.length_range, List.take_range, min_eq_left hBle,
        List.range_eq_range', drop_range', Nat.zero_add]
    have h3 : pySliceFrom (List.range n) (A + rv) =
        List.range' (pyIdx n A + (pyIdx n (A + rv) - pyIdx n A))
          (n - pyIdx n (A + rv)) := by
      rw [pySliceFrom, List.length_range, List.range_eq_range', drop_range',
        Nat.zero_add]
      congr 1
      omega
    rw [h1, h2, h3]

theorem toytools_C10_witness :
    ((0 : ℚ) ≤ 0) ∧
    train_val_test_split 3 0 (1/2) false id =
      train_val_test_split 3 0 (1/2) false (fun _ => []) :=
  ⟨le_refl 0, (toytools_C10 3 0 (1/2) id (fun _ => []) (le_refl 0)).1⟩

end Toytools
